import Mathlib

/-!
Verification of the Study-Assistant streaming-render pipeline.

The subject program is a browser chat UI whose core is `streamResponse`:
an async loop that pulls binary chunks from a network response, decodes
them with a stateful `TextDecoder` (`decode(value, stream:true)`),
accumulates the decoded text in `fullMessage`, and after every chunk
re-renders the whole accumulated text as Markdown into the message
element's `.message-content` and re-runs syntax highlighting over all
`pre code` blocks.  On a read error it appends a Markdown error note to
`fullMessage` (without re-rendering) and resolves with `fullMessage`.

Text is embedded as `List Char` (a JS string's code points), binary
chunks as `List Nat` (a `Uint8Array`'s bytes).
-/

namespace StudyAssistant

/-! ## TextDecoder model (WHATWG UTF-8 decoder, streaming mode)

`streamResponse` calls `decoder.decode(value, { stream: true })` on a
`TextDecoder` created once per call.  The decoder is a web-platform
collaborator (spec §6: a stateful byte→text decoder whose state for a
multi-byte sequence carries over between calls); it is modelled here by
the WHATWG Encoding Standard's UTF-8 decoder with replacement on error.
-/

/-- State of the streaming UTF-8 decoder between bytes: the code point
assembled so far, how many continuation bytes are still needed, how many
have been seen, and the admissible range for the next continuation byte. -/
structure DecoderState where
  codePoint : Nat
  bytesNeeded : Nat
  bytesSeen : Nat
  lowerBoundary : Nat
  upperBoundary : Nat
deriving DecidableEq

/-- Initial (and between-characters) decoder state. -/
def DecoderState.init : DecoderState := ⟨0, 0, 0, 0x80, 0xBF⟩

/-- Unicode replacement character U+FFFD, emitted for malformed input. -/
def replacementChar : Char := Char.ofNat 0xFFFD

/-- Handle one byte in the between-characters state: ASCII is emitted
directly, a legal lead byte opens a multi-byte sequence with the
boundaries prescribed by the WHATWG UTF-8 decoder, anything else is an
error replaced by U+FFFD. -/
def utf8HandleLead (b : Nat) : DecoderState × List Char :=
  if b ≤ 0x7F then (.init, [Char.ofNat b])
  else if 0xC2 ≤ b ∧ b ≤ 0xDF then (⟨b % 32, 1, 0, 0x80, 0xBF⟩, [])
  else if b = 0xE0 then (⟨b % 16, 2, 0, 0xA0, 0xBF⟩, [])
  else if b = 0xED then (⟨b % 16, 2, 0, 0x80, 0x9F⟩, [])
  else if 0xE1 ≤ b ∧ b ≤ 0xEF then (⟨b % 16, 2, 0, 0x80, 0xBF⟩, [])
  else if b = 0xF0 then (⟨b % 8, 3, 0, 0x90, 0xBF⟩, [])
  else if b = 0xF4 then (⟨b % 8, 3, 0, 0x80, 0x8F⟩, [])
  else if 0xF1 ≤ b ∧ b ≤ 0xF3 then (⟨b % 8, 3, 0, 0x80, 0xBF⟩, [])
  else (.init, [replacementChar])

/-- Feed one byte to the streaming UTF-8 decoder.  In the middle of a
multi-byte sequence an in-range continuation byte extends the code
point (emitting it when complete); an out-of-range byte is an error:
U+FFFD is emitted and the byte is reprocessed as a lead byte. -/
def utf8DecodeByte (s : DecoderState) (b : Nat) : DecoderState × List Char :=
  if s.bytesNeeded = 0 then utf8HandleLead b
  else if s.lowerBoundary ≤ b ∧ b ≤ s.upperBoundary then
    let cp := s.codePoint * 64 + b % 64
    if s.bytesSeen + 1 = s.bytesNeeded then (.init, [Char.ofNat cp])
    else (⟨cp, s.bytesNeeded, s.bytesSeen + 1, 0x80, 0xBF⟩, [])
  else
    let r := utf8HandleLead b
    (r.1, replacementChar :: r.2)

/-- Feed a whole chunk of bytes to the streaming decoder, threading the
state; returns the final state and the decoded characters.  This is one
`decoder.decode(value, { stream: true })` call: trailing bytes of an
incomplete character stay in the state and produce no output. -/
def utf8DecodeBytes (s : DecoderState) (bs : List Nat) : DecoderState × List Char :=
  match bs with
  | [] => (s, [])
  | b :: rest =>
    let r := utf8DecodeByte s b
    let r2 := utf8DecodeBytes r.1 rest
    (r2.1, r.2 ++ r2.2)

/-- UTF-8 encoding of one character (the bytes the backend would send
for it). -/
def utf8EncodeChar (c : Char) : List Nat :=
  let v := c.toNat
  if v < 0x80 then [v]
  else if v < 0x800 then [0xC0 + v / 64, 0x80 + v % 64]
  else if v < 0x10000 then
    [0xE0 + v / 4096, 0x80 + (v / 64) % 64, 0x80 + v % 64]
  else
    [0xF0 + v / 262144, 0x80 + (v / 4096) % 64, 0x80 + (v / 64) % 64, 0x80 + v % 64]

/-- UTF-8 encoding of a text: a byte stream is "valid text" when it is
`utf8Encode` of some character list. -/
def utf8Encode (s : List Char) : List Nat := s.flatMap utf8EncodeChar

/-! ## Renderer and highlighter models

`streamResponse` renders with `md.render` (markdown-it) and highlights
with `hljs.highlightElement` over every `pre code` block of the message
element.  Both are external libraries, not part of this repository.

Modelled from the spec: rendering turns the accumulated text into
"Markdown-like formatted content" containing identifiable embedded code
blocks; it is a deterministic function of the text.  The model splits
the text at backtick code fences into alternating text and (initially
unhighlighted) code blocks.

Modelled from the spec: the highlight step "must be safe to call
repeatedly, i.e. either skip already-processed blocks or make
highlighting a no-op on already-highlighted markup"; the model marks a
block when it highlights it and skips marked blocks, as
`hljs.highlightElement` does via its `data-highlighted` attribute. -/

/-- One region of rendered markup: plain text, or a code block carrying
its markup and a flag recording whether it has been highlighted. -/
inductive Block where
  | text (s : List Char)
  | code (s : List Char) (highlighted : Bool)
deriving DecidableEq

/-- Modelled from the spec: `md.render` (markdown-it, external library).
Deterministic Markdown-like rendering: backtick fences delimit code
blocks, which start out unhighlighted. -/
def md_render (s : List Char) : List Block :=
  (s.splitOn (Char.ofNat 96)).enum.map
    (fun p => if p.1 % 2 = 1 then Block.code p.2 false else Block.text p.2)

/-- Modelled from the spec: `hljs.highlightElement` (highlight.js,
external library) on one block.  A not-yet-highlighted code block gets
highlighting markup and is marked highlighted; text blocks and blocks
already marked highlighted are left unchanged. -/
def highlightElement (b : Block) : Block :=
  match b with
  | .code s false => .code ('<' :: s ++ ['>']) true
  | other => other

/-- The highlight pass of the loop body: querySelectorAll of `pre code`
on the message element followed by forEach of `hljs.highlightElement`
applies `highlightElement` to every block of the rendered markup. -/
def highlightAll (bs : List Block) : List Block := bs.map highlightElement

/-! ## streamResponse (src/unnamed/part_000 lines 177–212) -/

/-- Input to one `streamResponse` call: the byte chunks delivered by
`reader.read()` in arrival order, then either clean completion
(`failure = none`, the `done` read) or a read rejection carrying
`error.message` (`failure = some msg`; `msg = []` models a falsy
message). -/
structure StreamInput where
  chunks : List (List Nat)
  failure : Option (List Char)
deriving DecidableEq

/-- Mutable state of the read loop: the decoder, `fullMessage`, and the
trace of contents written wholesale to the `.message-content` element
(each entry is one `contentDiv.innerHTML = md.render(fullMessage)`
assignment followed by the highlight pass, in order). -/
structure LoopState where
  dec : DecoderState
  fullMessage : List Char
  renderLog : List (List Block)
deriving DecidableEq

/-- One iteration of the while-true loop for a chunk `value`: decode the
chunk in streaming mode and append it to `fullMessage`;
then, when the message element and its `.message-content` child exist
(`hasTarget`), `contentDiv.innerHTML = md.render(fullMessage)` and the
highlight pass.  `hasTarget` is fixed per call: `messageElement` is
looked up once before the loop. -/
def processChunk (hasTarget : Bool) (st : LoopState) (bytes : List Nat) : LoopState :=
  let d := utf8DecodeBytes st.dec bytes
  let full := st.fullMessage ++ d.2
  let log :=
    if hasTarget then st.renderLog ++ [highlightAll (md_render full)]
    else st.renderLog
  ⟨d.1, full, log⟩

/-- The Markdown error note the catch block appends to `fullMessage`:
two newlines, the bold Error-during-streaming label, then
`error.message`; a falsy `error.message` falls back to
`Connection interrupted.`. -/
def errorNote (msg : List Char) : List Char :=
  ("\n\n**Error during streaming:** ").data ++
    (if msg = [] then ("Connection interrupted.").data else msg)

/-- Result a `streamResponse` call resolves with (the promise never
rejects in this model, as in the source: the catch swallows the error):
the final `fullMessage` and the trace of rendered contents. -/
structure StreamResult where
  fullMessage : List Char
  renderLog : List (List Block)
deriving DecidableEq

/-- Shallow embedding of `streamResponse` (lines 177–212): run the read
loop over the delivered chunks; on clean completion (`done`) return
`fullMessage`; on a read error append the error note to `fullMessage`
— without writing anything further to the render target — and return. -/
def streamResponse (hasTarget : Bool) (input : StreamInput) : StreamResult :=
  let st := input.chunks.foldl (processChunk hasTarget) ⟨.init, [], []⟩
  match input.failure with
  | none => ⟨st.fullMessage, st.renderLog⟩
  | some m => ⟨st.fullMessage ++ errorNote m, st.renderLog⟩

/-- Displayed content of the `.message-content` element after the call:
the last wholesale replacement, or — when the loop never rendered — the
initial content the element was created with
(`addChatMessage('', 'ai', [], true)` renders the empty message, line
41: `md.render(message)` with `message = ''`). -/
def finalDisplayed (hasTarget : Bool) (input : StreamInput) : List Block :=
  (streamResponse hasTarget input).renderLog.getLastD (md_render [])

/-- Successive values taken by `fullMessage` during one call: its
initial empty value, its value after each chunk is appended, and — on a
read error — its value after the error note is appended. -/
def messageTrace (hasTarget : Bool) (input : StreamInput) : List (List Char) :=
  let ms := (input.chunks.scanl (processChunk hasTarget) ⟨.init, [], []⟩).map
    LoopState.fullMessage
  match input.failure with
  | none => ms
  | some _ => ms ++ [(streamResponse hasTarget input).fullMessage]

/-! ## removeTypingIndicator (src/unnamed/part_000 lines 166–169) -/

/-- The id of the typing-indicator element, `TYPING_INDICATOR_ID`. -/
def TYPING_INDICATOR_ID : List Char := "typing-indicator".data

/-- Minimal DOM document model: the ids of the elements present, in
document order.  `document.getElementById` is `List.find?` on it. -/
structure DomDoc where
  elements : List (List Char)
deriving DecidableEq

/-- The ReferenceError message thrown when the body of
`removeTypingIndicator` evaluates the unbound identifier `typing_Div`. -/
def typingDivRefError : List Char :=
  ("ReferenceError: typing_Div is not defined").data

/-- Shallow embedding of `removeTypingIndicator`:
`const typingDiv = document.getElementById(TYPING_INDICATOR_ID); if (typingDiv) typing_Div.remove();`
When the lookup succeeds the guarded statement evaluates `typing_Div`,
an identifier bound nowhere (the declared constant is `typingDiv`), so
the call throws a ReferenceError and the document is not changed; when
the lookup fails the function returns with no effect. -/
def removeTypingIndicator (doc : DomDoc) : Except (List Char) DomDoc :=
  let typingDiv := doc.elements.find? (fun i => i = TYPING_INDICATOR_ID)
  match typingDiv with
  | some _ => Except.error typingDivRefError
  | none => Except.ok doc


theorem utf8DecodeBytes_nil (s : DecoderState) : utf8DecodeBytes s [] = (s, []) := rfl

theorem utf8DecodeBytes_append (s : DecoderState) (a b : List Nat) :
    utf8DecodeBytes s (a ++ b) =
      ((utf8DecodeBytes (utf8DecodeBytes s a).1 b).1,
       (utf8DecodeBytes s a).2 ++ (utf8DecodeBytes (utf8DecodeBytes s a).1 b).2) := by
  induction a generalizing s with
  | nil => simp [utf8DecodeBytes]
  | cons x xs ih => simp [utf8DecodeBytes, ih]

theorem char_valid_nat (c : Char) :
    c.toNat < 0xd800 ∨ (0xe000 ≤ c.toNat ∧ c.toNat < 0x110000) := by
  have h := c.valid
  unfold UInt32.isValidChar Nat.isValidChar at h
  exact h

theorem utf8DecodeBytes_encodeChar (c : Char) :
    utf8DecodeBytes DecoderState.init (utf8EncodeChar c) = (DecoderState.init, [c]) := by
  have hv := char_valid_nat c
  have hofn := Char.ofNat_toNat c
  unfold utf8EncodeChar
  by_cases h1 : c.toNat < 0x80
  · rw [if_pos h1]
    have hb : c.toNat ≤ 0x7F := by omega
    simp [utf8DecodeBytes, utf8DecodeByte, utf8HandleLead, DecoderState.init, hb, hofn]
  · rw [if_neg h1]
    by_cases h2 : c.toNat < 0x800
    · rw [if_pos h2]
      have hnb1 : ¬ (0xC0 + c.toNat / 64 ≤ 0x7F) := by omega
      have hb1 : 0xC2 ≤ 0xC0 + c.toNat / 64 ∧ 0xC0 + c.toNat / 64 ≤ 0xDF := by omega
      have hm1 : (0xC0 + c.toNat / 64) % 32 = c.toNat / 64 := by omega
      have hb2 : 0x80 ≤ 0x80 + c.toNat % 64 ∧ 0x80 + c.toNat % 64 ≤ 0xBF := by omega
      simp [utf8DecodeBytes, utf8DecodeByte, utf8HandleLead, DecoderState.init,
            hnb1, hb1, hm1, hb2]
      exact Eq.trans (congrArg Char.ofNat (by omega)) hofn
    · rw [if_neg h2]
      by_cases h3 : c.toNat < 0x10000
      · rw [if_pos h3]
        have hnb1 : ¬ (0xE0 + c.toNat / 4096 ≤ 0x7F) := by omega
        have hnb2 : ¬ (0xC2 ≤ 0xE0 + c.toNat / 4096 ∧ 0xE0 + c.toNat / 4096 ≤ 0xDF) := by omega
        have hm1 : (0xE0 + c.toNat / 4096) % 16 = c.toNat / 4096 := by omega
        have hb3 : 0x80 ≤ 0x80 + c.toNat % 64 ∧ 0x80 + c.toNat % 64 ≤ 0xBF := by omega
        by_cases hA : c.toNat < 4096
        · have he0 : 0xE0 + c.toNat / 4096 = 0xE0 := by omega
          have hb2 : 0xA0 ≤ 0x80 + c.toNat / 64 % 64 ∧ 0x80 + c.toNat / 64 % 64 ≤ 0xBF := by omega
          simp [utf8DecodeBytes, utf8DecodeByte, utf8HandleLead, DecoderState.init,
                hnb1, hnb2, hm1, he0, hb2, hb3]
          exact Eq.trans (congrArg Char.ofNat (by omega)) hofn
        · by_cases hB : c.toNat / 4096 = 13
          · have hne0 : ¬ (0xE0 + c.toNat / 4096 = 0xE0) := by omega
            have hed : 0xE0 + c.toNat / 4096 = 0xED := by omega
            have hb2 : 0x80 ≤ 0x80 + c.toNat / 64 % 64 ∧ 0x80 + c.toNat / 64 % 64 ≤ 0x9F := by omega
            simp [utf8DecodeBytes, utf8DecodeByte, utf8HandleLead, DecoderState.init,
                  hnb1, hnb2, hne0, hed, hm1, hb2, hb3]
            exact Eq.trans (congrArg Char.ofNat (by omega)) hofn
          · have hne0 : ¬ (0xE0 + c.toNat / 4096 = 0xE0) := by omega
            have hned : ¬ (0xE0 + c.toNat / 4096 = 0xED) := by omega
            have hgen : 0xE1 ≤ 0xE0 + c.toNat / 4096 ∧ 0xE0 + c.toNat / 4096 ≤ 0xEF := by omega
            have hb2 : 0x80 ≤ 0x80 + c.toNat / 64 % 64 ∧ 0x80 + c.toNat / 64 % 64 ≤ 0xBF := by omega
            simp [utf8DecodeBytes, utf8DecodeByte, utf8HandleLead, DecoderState.init,
                  hnb1, hnb2, hne0, hned, hgen, hm1, hb2, hb3]
            exact Eq.trans (congrArg Char.ofNat (by omega)) hofn
      · rw [if_neg h3]
        have hnb1 : ¬ (0xF0 + c.toNat / 262144 ≤ 0x7F) := by omega
        have hnb2 : ¬ (0xC2 ≤ 0xF0 + c.toNat / 262144 ∧ 0xF0 + c.toNat / 262144 ≤ 0xDF) := by omega
        have hne0 : ¬ (0xF0 + c.toNat / 262144 = 0xE0) := by omega
        have hned : ¬ (0xF0 + c.toNat / 262144 = 0xED) := by omega
        have hnee : ¬ (0xE1 ≤ 0xF0 + c.toNat / 262144 ∧ 0xF0 + c.toNat / 262144 ≤ 0xEF) := by omega
        have hm1 : (0xF0 + c.toNat / 262144) % 8 = c.toNat / 262144 := by omega
        have hb3 : 0x80 ≤ 0x80 + c.toNat / 64 % 64 ∧ 0x80 + c.toNat / 64 % 64 ≤ 0xBF := by omega
        have hb4 : 0x80 ≤ 0x80 + c.toNat % 64 ∧ 0x80 + c.toNat % 64 ≤ 0xBF := by omega
        by_cases hA : c.toNat < 262144
        · have hf0 : 0xF0 + c.toNat / 262144 = 0xF0 := by omega
          have hb2 : 0x90 ≤ 0x80 + c.toNat / 4096 % 64 ∧ 0x80 + c.toNat / 4096 % 64 ≤ 0xBF := by omega
          simp [utf8DecodeBytes, utf8DecodeByte, utf8HandleLead, DecoderState.init,
                hnb1, hnb2, hne0, hned, hnee, hf0, hm1, hb2, hb3, hb4]
          exact Eq.trans (congrArg Char.ofNat (by omega)) hofn
        · by_cases hB : c.toNat / 262144 = 4
          · have hnf0 : ¬ (0xF0 + c.toNat / 262144 = 0xF0) := by omega
            have hf4 : 0xF0 + c.toNat / 262144 = 0xF4 := by omega
            have hb2 : 0x80 ≤ 0x80 + c.toNat / 4096 % 64 ∧ 0x80 + c.toNat / 4096 % 64 ≤ 0x8F := by omega
            simp [utf8DecodeBytes, utf8DecodeByte, utf8HandleLead, DecoderState.init,
                  hnb1, hnb2, hne0, hned, hnee, hnf0, hf4, hm1, hb2, hb3, hb4]
            exact Eq.trans (congrArg Char.ofNat (by omega)) hofn
          · have hnf0 : ¬ (0xF0 + c.toNat / 262144 = 0xF0) := by omega
            have hnf4 : ¬ (0xF0 + c.toNat / 262144 = 0xF4) := by omega
            have hgen : 0xF1 ≤ 0xF0 + c.toNat / 262144 ∧ 0xF0 + c.toNat / 262144 ≤ 0xF3 := by omega
            have hb2 : 0x80 ≤ 0x80 + c.toNat / 4096 % 64 ∧ 0x80 + c.toNat / 4096 % 64 ≤ 0xBF := by
              omega
            simp [utf8DecodeBytes, utf8DecodeByte, utf8HandleLead, DecoderState.init,
                  hnb1, hnb2, hne0, hned, hnee, hnf0, hnf4, hgen, hm1, hb2, hb3, hb4]
            exact Eq.trans (congrArg Char.ofNat (by omega)) hofn


theorem utf8DecodeBytes_encode (s : List Char) :
    utf8DecodeBytes DecoderState.init (utf8Encode s) = (DecoderState.init, s) := by
  induction s with
  | nil => simp [utf8Encode, utf8DecodeBytes]
  | cons c cs ih =>
    have hcons : utf8Encode (c :: cs) = utf8EncodeChar c ++ utf8Encode cs := by
      simp [utf8Encode]
    rw [hcons, utf8DecodeBytes_append, utf8DecodeBytes_encodeChar]
    simp [ih]

theorem utf8DecodeBytes_take_encodeChar (c : Char) (n : Nat) (h0 : 0 < n)
    (hn : n < (utf8EncodeChar c).length) :
    (utf8DecodeBytes DecoderState.init ((utf8EncodeChar c).take n)).2 = [] := by
  have hv := char_valid_nat c
  by_cases h1 : c.toNat < 0x80
  · have hlen : (utf8EncodeChar c).length = 1 := by simp [utf8EncodeChar, h1]
    omega
  · by_cases h2 : c.toNat < 0x800
    · have henc : utf8EncodeChar c = [0xC0 + c.toNat / 64, 0x80 + c.toNat % 64] := by
        simp [utf8EncodeChar, h1, h2]
      rw [henc] at hn ⊢
      simp only [List.length_cons, List.length_nil] at hn
      interval_cases n
      have hnb1 : ¬ (0xC0 + c.toNat / 64 ≤ 0x7F) := by omega
      have hb1 : 0xC2 ≤ 0xC0 + c.toNat / 64 ∧ 0xC0 + c.toNat / 64 ≤ 0xDF := by omega
      simp [utf8DecodeBytes, utf8DecodeByte, utf8HandleLead, DecoderState.init, hnb1, hb1]
    · by_cases h3 : c.toNat < 0x10000
      · have henc : utf8EncodeChar c =
            [0xE0 + c.toNat / 4096, 0x80 + c.toNat / 64 % 64, 0x80 + c.toNat % 64] := by
          simp [utf8EncodeChar, h1, h2, h3]
        rw [henc] at hn ⊢
        simp only [List.length_cons, List.length_nil] at hn
        have hnb1 : ¬ (0xE0 + c.toNat / 4096 ≤ 0x7F) := by omega
        have hnb2 : ¬ (0xC2 ≤ 0xE0 + c.toNat / 4096 ∧ 0xE0 + c.toNat / 4096 ≤ 0xDF) := by omega
        by_cases hA : c.toNat < 4096
        · have he0 : 0xE0 + c.toNat / 4096 = 0xE0 := by omega
          have hb2 : 0xA0 ≤ 0x80 + c.toNat / 64 % 64 ∧ 0x80 + c.toNat / 64 % 64 ≤ 0xBF := by omega
          interval_cases n <;>
            simp [utf8DecodeBytes, utf8DecodeByte, utf8HandleLead, DecoderState.init,
                  hnb1, hnb2, he0, hb2]
        · by_cases hB : c.toNat / 4096 = 13
          · have hne0 : ¬ (0xE0 + c.toNat / 4096 = 0xE0) := by omega
            have hed : 0xE0 + c.toNat / 4096 = 0xED := by omega
            have hb2 : 0x80 ≤ 0x80 + c.toNat / 64 % 64 ∧ 0x80 + c.toNat / 64 % 64 ≤ 0x9F := by
              omega
            interval_cases n <;>
              simp [utf8DecodeBytes, utf8DecodeByte, utf8HandleLead, DecoderState.init,
                    hnb1, hnb2, hne0, hed, hb2]
          · have hne0 : ¬ (0xE0 + c.toNat / 4096 = 0xE0) := by omega
            have hned : ¬ (0xE0 + c.toNat / 4096 = 0xED) := by omega
            have hgen : 0xE1 ≤ 0xE0 + c.toNat / 4096 ∧ 0xE0 + c.toNat / 4096 ≤ 0xEF := by omega
            have hb2 : 0x80 ≤ 0x80 + c.toNat / 64 % 64 ∧ 0x80 + c.toNat / 64 % 64 ≤ 0xBF := by
              omega
            interval_cases n <;>
              simp [utf8DecodeBytes, utf8DecodeByte, utf8HandleLead, DecoderState.init,
                    hnb1, hnb2, hne0, hned, hgen, hb2]
      · have henc : utf8EncodeChar c =
            [0xF0 + c.toNat / 262144, 0x80 + c.toNat / 4096 % 64,
             0x80 + c.toNat / 64 % 64, 0x80 + c.toNat % 64] := by
          simp [utf8EncodeChar, h1, h2, h3]
        rw [henc] at hn ⊢
        simp only [List.length_cons, List.length_nil] at hn
        have hnb1 : ¬ (0xF0 + c.toNat / 262144 ≤ 0x7F) := by omega
        have hnb2 : ¬ (0xC2 ≤ 0xF0 + c.toNat / 262144 ∧ 0xF0 + c.toNat / 262144 ≤ 0xDF) := by
          omega
        have hne0 : ¬ (0xF0 + c.toNat / 262144 = 0xE0) := by omega
        have hned : ¬ (0xF0 + c.toNat / 262144 = 0xED) := by omega
        have hnee : ¬ (0xE1 ≤ 0xF0 + c.toNat / 262144 ∧ 0xF0 + c.toNat / 262144 ≤ 0xEF) := by
          omega
        have hb3 : 0x80 ≤ 0x80 + c.toNat / 64 % 64 ∧ 0x80 + c.toNat / 64 % 64 ≤ 0xBF := by omega
        by_cases hA : c.toNat < 262144
        · have hf0 : 0xF0 + c.toNat / 262144 = 0xF0 := by omega
          have hb2 : 0x90 ≤ 0x80 + c.toNat / 4096 % 64 ∧ 0x80 + c.toNat / 4096 % 64 ≤ 0xBF := by
            omega
          interval_cases n <;>
            simp [utf8DecodeBytes, utf8DecodeByte, utf8HandleLead, DecoderState.init,
                  hnb1, hnb2, hne0, hned, hnee, hf0, hb2, hb3]
        · by_cases hB : c.toNat / 262144 = 4
          · have hnf0 : ¬ (0xF0 + c.toNat / 262144 = 0xF0) := by omega
            have hf4 : 0xF0 + c.toNat / 262144 = 0xF4 := by omega
            have hb2 : 0x80 ≤ 0x80 + c.toNat / 4096 % 64 ∧ 0x80 + c.toNat / 4096 % 64 ≤ 0x8F := by
              omega
            interval_cases n <;>
              simp [utf8DecodeBytes, utf8DecodeByte, utf8HandleLead, DecoderState.init,
                    hnb1, hnb2, hne0, hned, hnee, hnf0, hf4, hb2, hb3]
          · have hnf0 : ¬ (0xF0 + c.toNat / 262144 = 0xF0) := by omega
            have hnf4 : ¬ (0xF0 + c.toNat / 262144 = 0xF4) := by omega
            have hgen : 0xF1 ≤ 0xF0 + c.toNat / 262144 ∧ 0xF0 + c.toNat / 262144 ≤ 0xF3 := by
              omega
            have hb2 : 0x80 ≤ 0x80 + c.toNat / 4096 % 64 ∧ 0x80 + c.toNat / 4096 % 64 ≤ 0xBF := by
              omega
            interval_cases n <;>
              simp [utf8DecodeBytes, utf8DecodeByte, utf8HandleLead, DecoderState.init,
                    hnb1, hnb2, hne0, hned, hnee, hnf0, hnf4, hgen, hb2, hb3]

theorem foldl_processChunk_spec (t : Bool) (chunks : List (List Nat)) (d : DecoderState)
    (m : List Char) (log : List (List Block)) :
    chunks.foldl (processChunk t) ⟨d, m, log⟩ =
      ⟨(utf8DecodeBytes d chunks.flatten).1,
       m ++ (utf8DecodeBytes d chunks.flatten).2,
       log ++ (if t then
         (List.range chunks.length).map
           (fun i => highlightAll (md_render
             (m ++ (utf8DecodeBytes d ((chunks.take (i+1)).flatten)).2)))
         else [])⟩ := by
  induction chunks generalizing d m log with
  | nil => simp [utf8DecodeBytes]
  | cons c cs ih =>
    rw [List.foldl_cons]
    have hpc : processChunk t ⟨d, m, log⟩ c =
        ⟨(utf8DecodeBytes d c).1, m ++ (utf8DecodeBytes d c).2,
         log ++ (if t then [highlightAll (md_render (m ++ (utf8DecodeBytes d c).2))] else [])⟩ := by
      cases t <;> simp [processChunk]
    rw [hpc, ih]
    simp only [LoopState.mk.injEq]
    refine ⟨?_, ?_, ?_⟩
    · rw [List.flatten_cons, utf8DecodeBytes_append]
    · rw [List.flatten_cons, utf8DecodeBytes_append, List.append_assoc]
    · cases t
      · simp
      · simp [List.range_succ_eq_map, List.map_map, utf8DecodeBytes_append, Function.comp,
              List.take_succ_cons, utf8DecodeBytes_nil]

theorem scanl_cons_form {α β : Type} (f : β → α → β) (l : List α) (b : β) :
    ∃ r, List.scanl f b l = b :: r := by
  cases l with
  | nil => exact ⟨[], by simp⟩
  | cons a l => exact ⟨List.scanl f (f b a) l, by simp [List.scanl_cons]⟩

theorem scanl_getLast {α β : Type} (f : β → α → β) (l : List α) (b : β) :
    (List.scanl f b l).getLast? = some (List.foldl f b l) := by
  induction l generalizing b with
  | nil => simp
  | cons a l ih =>
    rw [List.scanl_cons, List.foldl_cons, List.singleton_append]
    obtain ⟨r, hr⟩ := scanl_cons_form f l (f b a)
    rw [hr, List.getLast?_cons_cons, ← hr, ih]

theorem processChunk_fullMessage_extends (t : Bool) (st : LoopState) (c : List Nat) :
    ∃ x, (processChunk t st c).fullMessage = st.fullMessage ++ x := by
  exact ⟨(utf8DecodeBytes st.dec c).2, rfl⟩

theorem chain_scanl_fullMessage (t : Bool) (chunks : List (List Nat)) (st : LoopState) :
    List.Chain' (fun a b : List Char => ∃ x, b = a ++ x)
      ((chunks.scanl (processChunk t) st).map LoopState.fullMessage) := by
  induction chunks generalizing st with
  | nil => simp
  | cons c cs ih =>
    rw [List.scanl_cons, List.singleton_append, List.map_cons, List.chain'_cons']
    refine ⟨?_, ih _⟩
    intro y hy
    obtain ⟨r, hr⟩ := scanl_cons_form (processChunk t) cs (processChunk t st c)
    rw [hr, List.map_cons, List.head?_cons] at hy
    obtain rfl : (processChunk t st c).fullMessage = y := by
      simpa using hy
    exact processChunk_fullMessage_extends t st c

theorem highlightElement_idem (b : Block) :
    highlightElement (highlightElement b) = highlightElement b := by
  cases b with
  | text s => rfl
  | code s hl => cases hl <;> rfl

theorem highlightAll_idem (bs : List Block) :
    highlightAll (highlightAll bs) = highlightAll bs := by
  simp [highlightAll, List.map_map, Function.comp_def, highlightElement_idem]

theorem errorNote_ne_nil (m : List Char) : errorNote m ≠ [] := by
  unfold errorNote
  intro h
  have := congrArg List.length h
  simp at this

theorem streamResponse_renderLog_spec (t : Bool) (chunks : List (List Nat))
    (failure : Option (List Char)) :
    (streamResponse t ⟨chunks, failure⟩).renderLog =
      if t then
        (List.range chunks.length).map
          (fun i => highlightAll (md_render
            (utf8DecodeBytes DecoderState.init ((chunks.take (i+1)).flatten)).2))
      else [] := by
  unfold streamResponse
  cases failure <;> cases t <;> simp [foldl_processChunk_spec]

theorem streamResponse_fullMessage_none (t : Bool) (chunks : List (List Nat)) :
    (streamResponse t ⟨chunks, none⟩).fullMessage =
      (utf8DecodeBytes DecoderState.init chunks.flatten).2 := by
  unfold streamResponse
  simp [foldl_processChunk_spec]

theorem streamResponse_fullMessage_some (t : Bool) (chunks : List (List Nat)) (m : List Char) :
    (streamResponse t ⟨chunks, some m⟩).fullMessage =
      (utf8DecodeBytes DecoderState.init chunks.flatten).2 ++ errorNote m := by
  unfold streamResponse
  simp [foldl_processChunk_spec]

theorem finalDisplayed_true_cons (chunks : List (List Nat)) (failure : Option (List Char))
    (h : chunks ≠ []) :
    finalDisplayed true ⟨chunks, failure⟩ =
      highlightAll (md_render (utf8DecodeBytes DecoderState.init chunks.flatten).2) := by
  unfold finalDisplayed
  rw [streamResponse_renderLog_spec, if_pos rfl]
  cases chunks with
  | nil => exact absurd rfl h
  | cons a l =>
    rw [List.length_cons, List.range_succ, List.map_append, List.map_cons, List.map_nil,
        List.getLastD_concat]
    rw [show l.length + 1 = (a :: l).length from rfl, List.take_length]

theorem finalDisplayed_false (chunks : List (List Nat)) (failure : Option (List Char)) :
    finalDisplayed false ⟨chunks, failure⟩ = md_render [] := by
  unfold finalDisplayed
  rw [streamResponse_renderLog_spec]
  simp

theorem finalDisplayed_true_nil (failure : Option (List Char)) :
    finalDisplayed true ⟨[], failure⟩ = md_render [] := by
  unfold finalDisplayed
  rw [streamResponse_renderLog_spec]
  simp

/-- C1: for every byte stream whose chunks' concatenation is the UTF-8 encoding of
a text `s` (valid text) and whose reads all succeed, `streamResponse` resolves
with exactly `s`, the concatenation of the decoded chunks in arrival order, once
the stream signals completion. -/
theorem C1_resolves_with_decoded_concat (t : Bool) (chunks : List (List Nat))
    (s : List Char) (h : chunks.flatten = utf8Encode s) :
    (streamResponse t ⟨chunks, none⟩).fullMessage = s := by
  rw [streamResponse_fullMessage_none, h, utf8DecodeBytes_encode]

/-- Witness for C1: the two chunks [72] and [105, 33] concatenate to the encoding
of the text Hi! and the call resolves with that text. -/
theorem C1_witness :
    ([[72], [105, 33]] : List (List Nat)).flatten = utf8Encode ("Hi!".data) ∧
    (streamResponse true ⟨[[72], [105, 33]], none⟩).fullMessage = "Hi!".data :=
  ⟨by decide, C1_resolves_with_decoded_concat true [[72], [105, 33]] ("Hi!".data) (by decide)⟩

/-- C2: if the underlying stream's read fails after the chunks have been
delivered, `streamResponse` resolves (the model returns a value, it never
rejects) with the concatenation of the delivered chunks' decoded text followed by
a non-empty error note. -/
theorem C2_error_appends_note (t : Bool) (chunks : List (List Nat)) (m : List Char) :
    (streamResponse t ⟨chunks, some m⟩).fullMessage =
      (utf8DecodeBytes DecoderState.init chunks.flatten).2 ++ errorNote m ∧
    errorNote m ≠ [] :=
  ⟨streamResponse_fullMessage_some t chunks m, errorNote_ne_nil m⟩

/-- C3: a multi-byte character whose bytes are split across two consecutive
chunks decodes to that same character — the decoder state carries over the chunk
boundary — exactly as if the bytes had arrived in a single chunk. -/
theorem C3_split_char_carries_state (c : Char) (pre suf : List Nat)
    (henc : utf8EncodeChar c = pre ++ suf) (hpre : pre ≠ []) (hsuf : suf ≠ []) :
    (streamResponse true ⟨[pre, suf], none⟩).fullMessage = [c] ∧
    (streamResponse true ⟨[pre, suf], none⟩).fullMessage =
      (streamResponse true ⟨[pre ++ suf], none⟩).fullMessage := by
  have h1 : ([pre, suf] : List (List Nat)).flatten = utf8EncodeChar c := by
    simp [henc]
  have h2 : ([pre ++ suf] : List (List Nat)).flatten = utf8EncodeChar c := by
    simp [henc]
  constructor
  · rw [streamResponse_fullMessage_none, h1, utf8DecodeBytes_encodeChar]
  · rw [streamResponse_fullMessage_none, streamResponse_fullMessage_none, h1, h2]

/-- Witness for C3: the two bytes of é delivered in separate chunks. -/
theorem C3_witness :
    utf8EncodeChar 'é' = [195] ++ [169] ∧
    (streamResponse true ⟨[[195], [169]], none⟩).fullMessage = ['é'] :=
  ⟨by decide,
   (C3_split_char_carries_state 'é' [195] [169] (by decide) (by decide) (by decide)).1⟩

/-- C4 counterexample: with one chunk [72] (the letter H) delivered and then a
read error with message boom, the displayed content after the call does not equal
the render of the resolved text (text-so-far plus error note): the catch block
never renders the note. -/
theorem C4_counterexample :
    finalDisplayed true ⟨[[72]], some ("boom".data)⟩ ≠
      highlightAll (md_render
        ((streamResponse true ⟨[[72]], some ("boom".data)⟩).fullMessage)) := by
  decide

/-- C4 as amended: after a read error `streamResponse` appends the non-empty
error note to the resolved text, but the render target's displayed content is not
updated with it — it is exactly what it was before the error, the render of the
text accumulated so far without the note. -/
theorem C4_amended_note_not_rendered (chunks : List (List Nat)) (m : List Char) :
    finalDisplayed true ⟨chunks, some m⟩ = finalDisplayed true ⟨chunks, none⟩ ∧
    (streamResponse true ⟨chunks, some m⟩).fullMessage =
      (streamResponse true ⟨chunks, none⟩).fullMessage ++ errorNote m ∧
    errorNote m ≠ [] := by
  refine ⟨?_, ?_, errorNote_ne_nil m⟩
  · unfold finalDisplayed
    rw [streamResponse_renderLog_spec, streamResponse_renderLog_spec]
  · rw [streamResponse_fullMessage_some, streamResponse_fullMessage_none]

/-- C5: the rendered output is a pure function of the accumulated text — two
chunk sequences whose byte concatenations are equal (hence whose decoded
accumulated texts are equal) leave identical final displayed content, regardless
of how the bytes were split into chunks. -/
theorem C5_render_pure_function (t : Bool) (c1 c2 : List (List Nat))
    (h : c1.flatten = c2.flatten) :
    finalDisplayed t ⟨c1, none⟩ = finalDisplayed t ⟨c2, none⟩ := by
  cases t
  · rw [finalDisplayed_false, finalDisplayed_false]
  · rcases eq_or_ne c1 [] with h1 | h1 <;> rcases eq_or_ne c2 [] with h2 | h2
    · subst h1; subst h2; rfl
    · subst h1
      rw [finalDisplayed_true_nil, finalDisplayed_true_cons c2 none h2, ← h]
      rfl
    · subst h2
      rw [finalDisplayed_true_nil, finalDisplayed_true_cons c1 none h1, h]
      rfl
    · rw [finalDisplayed_true_cons c1 none h1, finalDisplayed_true_cons c2 none h2, h]

/-- Witness for C5: the same bytes split as one chunk or two. -/
theorem C5_witness :
    ([[72, 105]] : List (List Nat)).flatten = ([[72], [105]] : List (List Nat)).flatten ∧
    finalDisplayed true ⟨[[72, 105]], none⟩ = finalDisplayed true ⟨[[72], [105]], none⟩ :=
  ⟨by decide, C5_render_pure_function true [[72, 105]] [[72], [105]] (by decide)⟩

/-- C6: applying the highlight pass a second time to the same rendered output
changes nothing — blocks already marked highlighted are skipped, so the pass is
idempotent on rendered markup. -/
theorem C6_highlight_idempotent (s : List Char) :
    highlightAll (highlightAll (md_render s)) = highlightAll (md_render s) :=
  highlightAll_idem (md_render s)

/-- C7: the accumulated text is append-only — along the whole trace of
`fullMessage` values taken during a call (initial value, after each chunk, and
after the error note if any), each value extends the previous one by a suffix;
it is never truncated or rewritten. -/
theorem C7_fullMessage_append_only (t : Bool) (input : StreamInput) :
    List.Chain' (fun a b : List Char => ∃ x, b = a ++ x) (messageTrace t input) := by
  obtain ⟨chunks, failure⟩ := input
  cases failure with
  | none => exact chain_scanl_fullMessage t chunks _
  | some m =>
    unfold messageTrace
    rw [List.chain'_append]
    refine ⟨chain_scanl_fullMessage t chunks _, List.chain'_singleton _, ?_⟩
    intro x hx y hy
    rw [List.getLast?_map, scanl_getLast] at hx
    simp only [Option.map_some', Option.mem_def, Option.some.injEq] at hx
    simp only [List.head?_cons, Option.mem_def, Option.some.injEq] at hy
    refine ⟨errorNote m, ?_⟩
    rw [← hy, ← hx]
    unfold streamResponse
    rfl

/-- C8: when the render target exists, the displayed content is replaced
wholesale once per chunk, in strict arrival order: the render log has exactly one
entry per chunk, and its i-th entry is the render (with highlighting) of the
decoded concatenation of the first i+1 chunks. -/
theorem C8_renders_in_arrival_order (input : StreamInput) (i : Nat)
    (hi : i < input.chunks.length) :
    (streamResponse true input).renderLog.length = input.chunks.length ∧
    (streamResponse true input).renderLog.get? i =
      some (highlightAll (md_render
        (utf8DecodeBytes DecoderState.init ((input.chunks.take (i+1)).flatten)).2)) := by
  obtain ⟨chunks, failure⟩ := input
  rw [streamResponse_renderLog_spec, if_pos rfl]
  constructor
  · simp
  · rw [List.get?_map, List.get?_range hi]
    rfl

/-- Witness for C8 at two chunks, inspecting the second render. -/
theorem C8_witness :
    (1 : Nat) < ([[72], [105]] : List (List Nat)).length ∧
    ((streamResponse true ⟨[[72], [105]], none⟩).renderLog.length = 2 ∧
     (streamResponse true ⟨[[72], [105]], none⟩).renderLog.get? 1 =
       some (highlightAll (md_render
         (utf8DecodeBytes DecoderState.init ((([[72], [105]] : List (List Nat)).take 2).flatten)).2))) :=
  ⟨by decide, C8_renders_in_arrival_order ⟨[[72], [105]], none⟩ 1 (by decide)⟩

/-- C9: whenever an element with the typing-indicator id exists in the document,
`removeTypingIndicator` throws a ReferenceError on the undefined, case-mismatched
identifier typing_Div, so the indicator is not removed; when no such element
exists the call returns without effect. -/
theorem C9_removeTypingIndicator_throws (doc : DomDoc) :
    (TYPING_INDICATOR_ID ∈ doc.elements →
      removeTypingIndicator doc = Except.error typingDivRefError) ∧
    (TYPING_INDICATOR_ID ∉ doc.elements → removeTypingIndicator doc = Except.ok doc) := by
  constructor
  · intro hmem
    unfold removeTypingIndicator
    have hsome : (doc.elements.find? (fun i => i = TYPING_INDICATOR_ID)).isSome :=
      List.find?_isSome.mpr ⟨TYPING_INDICATOR_ID, hmem, by decide⟩
    obtain ⟨x, hx⟩ := Option.isSome_iff_exists.mp hsome
    rw [hx]
  · intro hmem
    unfold removeTypingIndicator
    have hnone : doc.elements.find? (fun i => i = TYPING_INDICATOR_ID) = none := by
      rw [List.find?_eq_none]
      intro x hxmem
      simp only [decide_eq_true_eq]
      intro heq
      exact hmem (heq ▸ hxmem)
    rw [hnone]

/-- Witness for C9: a document holding the indicator throws; an empty one is
returned unchanged. -/
theorem C9_witness :
    removeTypingIndicator ⟨[TYPING_INDICATOR_ID]⟩ = Except.error typingDivRefError ∧
    removeTypingIndicator ⟨[]⟩ = Except.ok ⟨[]⟩ :=
  ⟨(C9_removeTypingIndicator_throws ⟨[TYPING_INDICATOR_ID]⟩).1 (by simp),
   (C9_removeTypingIndicator_throws ⟨[]⟩).2 (by simp)⟩

/-- C10: when the stream ends cleanly while the decoder still holds an
incomplete multi-byte sequence (the bytes delivered are the encoding of a text
`s` followed by a proper non-empty byte-level prefix of one more character's
encoding), there is no final flushing decode call, so the trailing bytes are
silently dropped: the call resolves with exactly `s`. -/
theorem C10_trailing_bytes_dropped (t : Bool) (chunks : List (List Nat))
    (s : List Char) (c : Char) (k : Nat) (h0 : 0 < k)
    (hk : k < (utf8EncodeChar c).length)
    (hfl : chunks.flatten = utf8Encode s ++ (utf8EncodeChar c).take k) :
    (streamResponse t ⟨chunks, none⟩).fullMessage = s := by
  rw [streamResponse_fullMessage_none, hfl, utf8DecodeBytes_append,
      utf8DecodeBytes_encode]
  simp [utf8DecodeBytes_take_encodeChar c k h0 hk]

/-- Witness for C10: the text ab followed by the first byte of é, ended there. -/
theorem C10_witness :
    (0 : Nat) < 1 ∧ (1 : Nat) < (utf8EncodeChar 'é').length ∧
    ([[97, 98, 195]] : List (List Nat)).flatten =
      utf8Encode ("ab".data) ++ (utf8EncodeChar 'é').take 1 ∧
    (streamResponse true ⟨[[97, 98, 195]], none⟩).fullMessage = "ab".data :=
  ⟨by decide, by decide, by decide,
   C10_trailing_bytes_dropped true [[97, 98, 195]] ("ab".data) 'é' 1
     (by decide) (by decide) (by decide)⟩

end StudyAssistant
